import Mathlib

/-!
Verification of the `yaol` Observable / `concat` combinator specification.

The repository ships the public declaration file `src/lib/factories/concat.d.ts`
and the jest test-suite for `concat`; the implementation bodies of
`Observable`, `Subscription` and `concat` are not present under `src/`, so the
runtime behaviour is modelled from the specification (sections 2-5 and 8 of
`spec.md`), faithfully to its state-machine description.
-/

/-- A signal a producer can send to its observer: `next v`, `error e`, or
`complete` (spec section 2, Observer callbacks). -/
inductive Sig (α ε : Type) where
  | next (v : α)
  | error (e : ε)
  | complete
deriving DecidableEq, Repr

/-- An event delivered to the user-supplied outer observer. -/
inductive Out (α ε : Type) where
  | next (v : α)
  | error (e : ε)
  | complete
deriving DecidableEq, Repr

/-- Modelled from the spec: the state of one `concat` outer subscription
(spec section 4.3): before termination exactly one source index is active;
`Completed`, `Errored` and `Cancelled` are terminal. The implementation of
`concat` is missing from `src/`; this follows the state machine of
section 4.3 verbatim. -/
inductive Phase where
  | activeOn (i : Nat)
  | completed
  | errored
  | cancelled
deriving DecidableEq, Repr

/-- Whether a phase is terminal (spec section 4.3: `Completed`, `Errored`,
`Cancelled` are terminal; no transitions leave them). -/
def Phase.isTerminal : Phase → Bool
  | .activeOn _ => false
  | _ => true

/-- An external stimulus during a `concat` run: source `i`'s producer invokes
one of its observer callbacks (as the test harness triggers do), or the outer
subscription's `unsubscribe()` is called. -/
inductive Ev (α ε : Type) where
  | trigger (i : Nat) (sig : Sig α ε)
  | unsub
deriving DecidableEq, Repr

/-- Modelled from the spec: the ephemeral per-subscription sequencing state of
`concat` (spec section 3): the number `n` of sources, the current phase, how
many sources have had their producer invoked (`subscribedCount`: sources
`0..subscribedCount-1`), how many times each source's teardown has run, and
the trace of events delivered to the user-supplied outer observer. -/
structure CState (α ε : Type) where
  n : Nat
  phase : Phase
  subscribedCount : Nat
  teardowns : List Nat
  trace : List (Out α ε)
deriving DecidableEq, Repr

/-- Increment the teardown-invocation counter of source `i`. -/
def bump (l : List Nat) (i : Nat) : List Nat :=
  l.set i (l.getD i 0 + 1)

/-- Modelled from the spec: the state of a `concat` subscription immediately
after the outer `subscribe` call. Spec section 4.3: `Idle -> ActiveOn(0)` on
outer subscribe (source 0's producer is invoked); an empty source list
completes synchronously without emitting (section 8). The implementation of
`concat` is missing from `src/`. -/
def initC (α ε : Type) (n : Nat) : CState α ε :=
  { n := n
    phase := if n = 0 then .completed else .activeOn 0
    subscribedCount := if n = 0 then 0 else 1
    teardowns := List.replicate n 0
    trace := if n = 0 then [Out.complete] else [] }

/-- Modelled from the spec: one transition of the `concat` state machine
(spec sections 4.1-4.3). A signal from the currently active source `i` is
forwarded (`next`), terminates with teardown of source `i` (`error`), or
advances to source `i+1` / completes (`complete`); a signal from any other
source is silently dropped by the per-subscription guard (sections 4.1, 4.2);
`unsubscribe` in `ActiveOn(i)` tears down exactly source `i`; terminal phases
absorb everything. The implementation of `concat` is missing from `src/`. -/
def stepc {α ε : Type} (s : CState α ε) (e : Ev α ε) : CState α ε :=
  match s.phase with
  | .activeOn i =>
    match e with
    | .unsub => { s with phase := .cancelled, teardowns := bump s.teardowns i }
    | .trigger j sig =>
      if j = i then
        match sig with
        | .next v => { s with trace := s.trace ++ [Out.next v] }
        | .error err =>
            { s with phase := .errored
                     teardowns := bump s.teardowns i
                     trace := s.trace ++ [Out.error err] }
        | .complete =>
            if i + 1 < s.n then
              { s with phase := .activeOn (i + 1)
                       subscribedCount := s.subscribedCount + 1
                       teardowns := bump s.teardowns i }
            else
              { s with phase := .completed
                       teardowns := bump s.teardowns i
                       trace := s.trace ++ [Out.complete] }
      else s
  | _ => s

/-- Run the `concat` machine on `n` sources over a list of external events. -/
def runC (α ε : Type) (n : Nat) (evs : List (Ev α ε)) : CState α ε :=
  evs.foldl stepc (initC α ε n)

/-- Modelled from the spec: the state of one `Subscription` with its wrapped
(guarded) observer (spec sections 3, 4.1, 4.2): an `active` flag, the number
of times the associated teardown has run, and the events delivered to the
user-supplied observer. The implementation of the `Observable`/`Subscription`
primitive is missing from `src/`. -/
structure GSub (α ε : Type) where
  active : Bool
  teardownRuns : Nat
  delivered : List (Out α ε)
deriving DecidableEq, Repr

/-- Modelled from the spec: delivery of one producer signal through the
wrapped observer (spec sections 4.1, 4.2): while active, `next` is forwarded;
`error`/`complete` are forwarded once, mark the subscription inactive and run
the teardown (terminal delivery implicitly unsubscribes); once inactive every
signal is silently dropped. -/
def deliverSig {α ε : Type} (g : GSub α ε) (sig : Sig α ε) : GSub α ε :=
  if g.active then
    match sig with
    | .next v => { g with delivered := g.delivered ++ [Out.next v] }
    | .error e =>
        { active := false
          teardownRuns := g.teardownRuns + 1
          delivered := g.delivered ++ [Out.error e] }
    | .complete =>
        { active := false
          teardownRuns := g.teardownRuns + 1
          delivered := g.delivered ++ [Out.complete] }
  else g

/-- Deliver a list of producer signals in order through the wrapped observer. -/
def deliverAll {α ε : Type} (g : GSub α ε) (sigs : List (Sig α ε)) : GSub α ε :=
  sigs.foldl deliverSig g

/-- Modelled from the spec: `unsubscribe()` on a `Subscription` (spec
sections 2, 4.1): if already inactive it is a no-op, otherwise it marks the
subscription inactive and invokes the teardown exactly once. -/
def gUnsub {α ε : Type} (g : GSub α ε) : GSub α ε :=
  if g.active then
    { g with active := false, teardownRuns := g.teardownRuns + 1 }
  else g

/-- A type expression of the declaration file: `Observable` of the union of
the element-type variables with the given indices (`0` standing for `A`, `1`
for `B`, and so on). -/
structure ObsTy where
  unionOf : List Nat
deriving DecidableEq, Repr

/-- One declared overload of `concat`: its parameter types and return type. -/
structure Overload where
  params : List ObsTy
  ret : ObsTy
deriving DecidableEq, Repr

/-- The declared surface of `concat` in `src/lib/factories/concat.d.ts`:
four overloads, of 2, 3, 4 and 5 parameters `a : Observable<A>`,
`b : Observable<B>`, ..., each returning `Observable` of the union of the
parameters' element types. -/
def concatDecl : List Overload :=
  [ { params := [⟨[0]⟩, ⟨[1]⟩], ret := ⟨[0, 1]⟩ }
  , { params := [⟨[0]⟩, ⟨[1]⟩, ⟨[2]⟩], ret := ⟨[0, 1, 2]⟩ }
  , { params := [⟨[0]⟩, ⟨[1]⟩, ⟨[2]⟩, ⟨[3]⟩], ret := ⟨[0, 1, 2, 3]⟩ }
  , { params := [⟨[0]⟩, ⟨[1]⟩, ⟨[2]⟩, ⟨[3]⟩, ⟨[4]⟩], ret := ⟨[0, 1, 2, 3, 4]⟩ } ]

theorem stepc_terminal {α ε : Type} (s : CState α ε) (e : Ev α ε)
    (h : s.phase.isTerminal = true) : stepc s e = s := by
  obtain ⟨n, ph, sc, td, tr⟩ := s
  cases ph with
  | activeOn i => simp [Phase.isTerminal] at h
  | completed => rfl
  | errored => rfl
  | cancelled => rfl

theorem foldl_stepc_terminal {α ε : Type} (s : CState α ε) (evs : List (Ev α ε))
    (h : s.phase.isTerminal = true) : evs.foldl stepc s = s := by
  induction evs with
  | nil => rfl
  | cons e rest ih => rw [List.foldl_cons, stepc_terminal s e h]; exact ih

theorem length_bump (l : List Nat) (i : Nat) : (bump l i).length = l.length := by
  simp [bump]

theorem getD_bump_ne (l : List Nat) (i j : Nat) (h : j ≠ i) :
    (bump l i).getD j 0 = l.getD j 0 := by
  induction l generalizing i j with
  | nil => simp [bump]
  | cons a t ih =>
    cases i with
    | zero =>
      cases j with
      | zero => exact absurd rfl h
      | succ k => simp [bump]
    | succ m =>
      cases j with
      | zero => simp [bump]
      | succ k =>
        have hk : k ≠ m := fun hkm => h (by rw [hkm])
        simpa [bump] using ih m k hk

theorem getD_bump_self (l : List Nat) (i : Nat) (h : i < l.length) :
    (bump l i).getD i 0 = l.getD i 0 + 1 := by
  induction l generalizing i with
  | nil => simp at h
  | cons a t ih =>
    cases i with
    | zero => simp [bump]
    | succ m => simpa [bump] using ih m (by simpa using h)

/-- The list of external events of one well-behaved source `i`: it emits its
values in order, then signals complete. -/
def sourceEvs {α ε : Type} (i : Nat) (vs : List α) : List (Ev α ε) :=
  vs.map (fun v => Ev.trigger i (Sig.next v)) ++ [Ev.trigger i Sig.complete]

/-- The canonical event schedule in which the sources `i, i+1, ...` each emit
their list of values and complete, in source order. -/
def schedFrom {α ε : Type} (i : Nat) (vss : List (List α)) : List (Ev α ε) :=
  match vss with
  | [] => []
  | vs :: rest => sourceEvs i vs ++ schedFrom (i + 1) rest

theorem foldl_nexts {α ε : Type} (vs : List α) :
    ∀ (s : CState α ε) (i : Nat), s.phase = .activeOn i →
    (vs.map (fun v => Ev.trigger i (Sig.next v))).foldl stepc s =
      { s with trace := s.trace ++ vs.map Out.next } := by
  induction vs with
  | nil => intro s i h; simp
  | cons v t ih =>
    intro s i h
    obtain ⟨n, ph, sc, td, tr⟩ := s
    simp only at h
    subst h
    have hstep :
        stepc (CState.mk n (.activeOn i) sc td tr) (Ev.trigger i (Sig.next v)) =
          CState.mk n (.activeOn i) sc td (tr ++ [Out.next v]) := by
      simp [stepc]
    simp only [List.map_cons, List.foldl_cons, hstep]
    have := ih (CState.mk n (.activeOn i) sc td (tr ++ [Out.next v])) i rfl
    simp only at this
    rw [this]
    simp

theorem schedFrom_run {α ε : Type} (vss : List (List α)) (hne : vss ≠ []) :
    ∀ (i : Nat) (s : CState α ε), s.phase = .activeOn i → s.n = i + vss.length →
    ((schedFrom i vss).foldl stepc s).trace =
        s.trace ++ vss.flatten.map Out.next ++ [Out.complete]
    ∧ ((schedFrom i vss).foldl stepc s).phase = .completed := by
  induction vss with
  | nil => exact absurd rfl hne
  | cons vs rest ih =>
    intro i s h hn
    obtain ⟨n, ph, sc, td, tr⟩ := s
    simp only at h hn
    subst h
    simp only [schedFrom, sourceEvs, List.foldl_append, List.append_assoc,
      List.cons_append, List.nil_append]
    rw [foldl_nexts vs (CState.mk n (.activeOn i) sc td tr) i rfl]
    simp only [List.foldl_cons, List.foldl_nil]
    cases rest with
    | nil =>
      have hlt : ¬ (i + 1 < n) := by
        simp only [List.length_cons, List.length_nil] at hn
        omega
      have hstep :
          stepc (CState.mk n (.activeOn i) sc td (tr ++ vs.map Out.next))
              (Ev.trigger i Sig.complete) =
            CState.mk n .completed sc (bump td i)
              (tr ++ vs.map Out.next ++ [Out.complete]) := by
        simp [stepc, hlt]
      rw [hstep]
      simp [schedFrom]
    | cons r rs =>
      have hlt : i + 1 < n := by
        simp only [List.length_cons] at hn
        omega
      have hstep :
          stepc (CState.mk n (.activeOn i) sc td (tr ++ vs.map Out.next))
              (Ev.trigger i Sig.complete) =
            CState.mk n (.activeOn (i + 1)) (sc + 1) (bump td i)
              (tr ++ vs.map Out.next) := by
        simp [stepc, hlt]
      rw [hstep]
      have hrest :=
        ih (by simp) (i + 1)
          (CState.mk n (.activeOn (i + 1)) (sc + 1) (bump td i) (tr ++ vs.map Out.next))
          rfl (by simp only [List.length_cons] at hn ⊢; omega)
      simp only at hrest
      obtain ⟨h1, h2⟩ := hrest
      refine ⟨?_, h2⟩
      rw [h1]
      simp

theorem getD_len_le (l : List Nat) (j : Nat) (h : l.length ≤ j) : l.getD j 0 = 0 := by
  induction l generalizing j with
  | nil => simp
  | cons a t ih =>
    cases j with
    | zero => simp at h
    | succ k => exact ih k (by simpa using h)

theorem getD_replicate_zero (n j : Nat) : (List.replicate n 0).getD j 0 = 0 := by
  induction n generalizing j with
  | zero => simp
  | succ m ih =>
    cases j with
    | zero => simp [List.replicate]
    | succ k => simp only [List.replicate, List.getD_cons_succ]; exact ih k

/-- The reachability invariant of the `concat` machine: the teardown-counter
list has one entry per source; while `ActiveOn(i)` exactly sources `0..i`
have been subscribed and exactly sources `0..i-1` have had their teardown run
(each exactly once); in a terminal phase exactly the subscribed sources have
had their teardown run exactly once. -/
def goodP {α ε : Type} (s : CState α ε) : Prop :=
  s.teardowns.length = s.n ∧
  match s.phase with
  | .activeOn i =>
      i < s.n ∧ s.subscribedCount = i + 1 ∧
      ∀ j, j < s.n → s.teardowns.getD j 0 = if j < i then 1 else 0
  | _ =>
      s.subscribedCount ≤ s.n ∧
      ∀ j, j < s.n → s.teardowns.getD j 0 = if j < s.subscribedCount then 1 else 0

theorem goodP_init {α ε : Type} (n : Nat) : goodP (initC α ε n) := by
  by_cases hn : n = 0
  · subst hn
    exact ⟨rfl, Nat.le_refl 0, fun j hj => absurd hj (Nat.not_lt_zero j)⟩
  · have hinit : initC α ε n =
        CState.mk n (.activeOn 0) 1 (List.replicate n 0) [] := by
      simp [initC, hn]
    rw [hinit]
    exact ⟨by simp, Nat.pos_of_ne_zero hn, rfl,
      fun j hj => by simp [getD_replicate_zero]⟩

theorem goodP_bump_at (td : List Nat) (n i : Nat) (hlen : td.length = n) (hi : i < n)
    (hold : ∀ j, j < n → td.getD j 0 = if j < i then 1 else 0) :
    ∀ j, j < n → (bump td i).getD j 0 = if j < i + 1 then 1 else 0 := by
  intro j hj
  by_cases hji : j = i
  · subst hji
    rw [getD_bump_self td j (by omega), hold j hj]
    simp
  · rw [getD_bump_ne td i j hji, hold j hj]
    by_cases hlt : j < i
    · simp [hlt, Nat.lt_succ_of_lt hlt]
    · have h1 : ¬ (j < i + 1) := by omega
      simp [hlt, h1]

theorem goodP_step {α ε : Type} (s : CState α ε) (e : Ev α ε) (h : goodP s) :
    goodP (stepc s e) := by
  obtain ⟨n, ph, sc, td, tr⟩ := s
  obtain ⟨hlen, hrest⟩ := h
  simp only at hlen
  cases ph with
  | completed => exact ⟨hlen, hrest⟩
  | errored => exact ⟨hlen, hrest⟩
  | cancelled => exact ⟨hlen, hrest⟩
  | activeOn i =>
    obtain ⟨hi, hsc, htd⟩ := hrest
    simp only at hi hsc htd
    subst hsc
    cases e with
    | unsub =>
      have hstep : stepc (CState.mk n (.activeOn i) (i + 1) td tr) Ev.unsub =
          CState.mk n .cancelled (i + 1) (bump td i) tr := rfl
      rw [hstep]
      exact ⟨by simpa [bump] using hlen, (by omega : i + 1 ≤ n),
        goodP_bump_at td n i hlen hi htd⟩
    | trigger j sig =>
      by_cases hji : j = i
      · subst hji
        cases sig with
        | next v =>
          have hstep : stepc (CState.mk n (.activeOn j) (j + 1) td tr)
                (Ev.trigger j (Sig.next v)) =
              CState.mk n (.activeOn j) (j + 1) td (tr ++ [Out.next v]) := by
            simp [stepc]
          rw [hstep]
          exact ⟨hlen, hi, rfl, htd⟩
        | error e =>
          have hstep : stepc (CState.mk n (.activeOn j) (j + 1) td tr)
                (Ev.trigger j (Sig.error e)) =
              CState.mk n .errored (j + 1) (bump td j)
                (tr ++ [Out.error e]) := by
            simp [stepc]
          rw [hstep]
          exact ⟨by simpa [bump] using hlen, (by omega : j + 1 ≤ n),
            goodP_bump_at td n j hlen hi htd⟩
        | complete =>
          by_cases hadv : j + 1 < n
          · have hstep : stepc (CState.mk n (.activeOn j) (j + 1) td tr)
                  (Ev.trigger j Sig.complete) =
                CState.mk n (.activeOn (j + 1)) (j + 1 + 1) (bump td j) tr := by
              simp [stepc, hadv]
            rw [hstep]
            exact ⟨by simpa [bump] using hlen, hadv, rfl,
              goodP_bump_at td n j hlen hi htd⟩
          · have hstep : stepc (CState.mk n (.activeOn j) (j + 1) td tr)
                  (Ev.trigger j Sig.complete) =
                CState.mk n .completed (j + 1) (bump td j)
                  (tr ++ [Out.complete]) := by
              simp [stepc, hadv]
            rw [hstep]
            exact ⟨by simpa [bump] using hlen, (by omega : j + 1 ≤ n),
              goodP_bump_at td n j hlen hi htd⟩
      · have hstep : stepc (CState.mk n (.activeOn i) (i + 1) td tr)
              (Ev.trigger j sig) =
            CState.mk n (.activeOn i) (i + 1) td tr := by
          simp [stepc, hji]
        rw [hstep]
        exact ⟨hlen, hi, rfl, htd⟩

theorem goodP_foldl {α ε : Type} (evs : List (Ev α ε)) :
    ∀ (s : CState α ε), goodP s → goodP (evs.foldl stepc s) := by
  induction evs with
  | nil => intro s h; exact h
  | cons e rest ih =>
    intro s h
    exact ih (stepc s e) (goodP_step s e h)

theorem goodP_run {α ε : Type} (n : Nat) (evs : List (Ev α ε)) :
    goodP (runC α ε n evs) :=
  goodP_foldl evs (initC α ε n) (goodP_init n)

theorem deliverSig_inactive {α ε : Type} (g : GSub α ε) (sig : Sig α ε)
    (h : g.active = false) : deliverSig g sig = g := by
  simp [deliverSig, h]

theorem deliverAll_inactive {α ε : Type} (sigs : List (Sig α ε)) :
    ∀ (g : GSub α ε), g.active = false → deliverAll g sigs = g := by
  induction sigs with
  | nil => intro g _; rfl
  | cons sig rest ih =>
    intro g h
    show deliverAll (deliverSig g sig) rest = g
    rw [deliverSig_inactive g sig h]
    exact ih g h

/-- Claim C1: for every non-empty list of sources that each emit their finite
list of values and then complete, the `concat` observable delivers to its
observer exactly the concatenation of the value lists in source order,
followed by exactly one `complete`, which occurs only after the last source
completes (the machine terminates in the `Completed` phase with that exact
trace). -/
theorem concat_emits_concatenation_then_completes {α ε : Type}
    (vss : List (List α)) (hne : vss ≠ []) :
    (runC α ε vss.length (schedFrom 0 vss)).trace =
        vss.flatten.map Out.next ++ [Out.complete]
    ∧ (runC α ε vss.length (schedFrom 0 vss)).phase = .completed := by
  have hn : vss.length ≠ 0 := by
    simpa using hne
  have hinit : initC α ε vss.length =
      CState.mk vss.length (.activeOn 0) 1 (List.replicate vss.length 0) [] := by
    simp [initC, hn]
  have h := schedFrom_run vss hne 0 (initC α ε vss.length)
    (by rw [hinit]) (by simp [initC])
  rw [hinit] at h
  simpa [runC, hinit] using h

/-- Witness for C1 at the concrete source lists `[[1, 2], [3]]`. -/
theorem concat_emits_concatenation_then_completes_witness :
    ([[1, 2], [3]] : List (List Nat)) ≠ []
    ∧ ((runC Nat Nat ([[1, 2], [3]] : List (List Nat)).length
          (schedFrom 0 [[1, 2], [3]])).trace =
        ([[1, 2], [3]] : List (List Nat)).flatten.map Out.next ++ [Out.complete]
      ∧ (runC Nat Nat ([[1, 2], [3]] : List (List Nat)).length
          (schedFrom 0 [[1, 2], [3]])).phase = .completed) :=
  ⟨by decide,
    concat_emits_concatenation_then_completes (α := Nat) (ε := Nat)
      [[1, 2], [3]] (by decide)⟩

/-- Claim C9: `concat` of an empty source list yields an observable whose
subscribe synchronously delivers exactly one `complete` and no `next`: the
initial state of the machine on zero sources already carries the trace
`[complete]` and is in the terminal `Completed` phase. -/
theorem concat_empty_completes_synchronously (α ε : Type) :
    (initC α ε 0).trace = [Out.complete] ∧ (initC α ε 0).phase = .completed :=
  ⟨rfl, rfl⟩

/-- Claim C10: the declared surface of `concat` consists of exactly four
overloads, of arities 2, 3, 4 and 5, each returning an `Observable` of the
union of its parameters' element types; no declared overload accepts zero
sources, a single source, or more than five sources. -/
theorem concat_declared_overloads :
    concatDecl.map (fun o => o.params.length) = [2, 3, 4, 5]
    ∧ concatDecl.all (fun o =>
        (o.params == (List.range o.params.length).map (fun k => ObsTy.mk [k]))
        && (o.ret == ObsTy.mk (List.range o.params.length))) = true
    ∧ concatDecl.all (fun o =>
        decide (2 ≤ o.params.length) && decide (o.params.length ≤ 5)) = true
    ∧ (concatDecl.map (fun o => o.params.length)).all
        (fun a => decide (a ≠ 0) && decide (a ≠ 1)) = true := by
  refine ⟨by decide, by decide, by decide, by decide⟩

/-- Claim C2 counterexample: with two sources, source 0 completes and then
signals `error 5`; contrary to the claim ("if source `i` signals `error(e)`
at any point, the outer observer receives `e` through its error callback
exactly once"), the outer observer receives nothing at all — the error is
dropped by the guard because source 0 is no longer the active source. -/
theorem concat_error_after_complete_dropped_cex :
    (runC Nat Nat 2
        [Ev.trigger 0 Sig.complete, Ev.trigger 0 (Sig.error 5)]).trace = []
    ∧ Out.error 5 ∉
        (runC Nat Nat 2
          [Ev.trigger 0 Sig.complete, Ev.trigger 0 (Sig.error 5)]).trace := by
  refine ⟨by decide, by decide⟩

/-- Claim C2 (amended): if source `i` signals `error(e)` while it is the
currently active source, the outer observer receives exactly the `next`
values already forwarded (the trace so far), then the very value `e` through
its error callback exactly once, and thereafter — whatever further events
occur — no `complete` and no further `next` is ever delivered. -/
theorem concat_error_while_active_propagates {α ε : Type} (s : CState α ε)
    (i : Nat) (e : ε) (rest : List (Ev α ε)) (h : s.phase = .activeOn i) :
    ((Ev.trigger i (Sig.error e) :: rest).foldl stepc s).trace =
      s.trace ++ [Out.error e] := by
  obtain ⟨n, ph, sc, td, tr⟩ := s
  simp only at h
  subst h
  have hstep : stepc (CState.mk n (.activeOn i) sc td tr)
        (Ev.trigger i (Sig.error e)) =
      CState.mk n .errored sc (bump td i) (tr ++ [Out.error e]) := by
    simp [stepc]
  simp only [List.foldl_cons, hstep]
  rw [foldl_stepc_terminal
    (CState.mk n .errored sc (bump td i) (tr ++ [Out.error e])) rest rfl]

/-- Witness for the amended C2: source 0 errors with `5` while active; a
later stray `next` changes nothing and the delivered trace is exactly the
single error. -/
theorem concat_error_while_active_propagates_witness :
    (CState.mk 2 (Phase.activeOn 0) 1 [0, 0]
        ([] : List (Out Nat Nat))).phase = Phase.activeOn 0
    ∧ ((Ev.trigger 0 (Sig.error 5) :: [Ev.trigger 1 (Sig.next 9)]).foldl stepc
          (CState.mk 2 (Phase.activeOn 0) 1 [0, 0] [])).trace =
        ([] : List (Out Nat Nat)) ++ [Out.error 5] :=
  ⟨rfl,
    concat_error_while_active_propagates
      (CState.mk 2 (Phase.activeOn 0) 1 [0, 0] []) 0 5
      [Ev.trigger 1 (Sig.next 9)] rfl⟩

/-- Claim C3: the wrapped observer guards every callback. Once a subscription
is inactive (error delivered, complete delivered, or unsubscribe called),
every subsequent producer signal is silently dropped (the subscription state
is unchanged, so nothing more reaches the user-supplied observer); `error`,
`complete` and `unsubscribe` all make it inactive; and in `concat` a signal
from a source that is not the currently active one — in particular an error
from a source that already completed — changes nothing and is never
forwarded to the outer observer. -/
theorem inactive_subscription_drops_callbacks {α ε : Type} :
    (∀ (g : GSub α ε) (sigs : List (Sig α ε)), g.active = false →
        deliverAll g sigs = g)
    ∧ (∀ (g : GSub α ε) (e : ε), (deliverSig g (Sig.error e)).active = false)
    ∧ (∀ g : GSub α ε, (deliverSig g Sig.complete).active = false)
    ∧ (∀ g : GSub α ε, (gUnsub g).active = false)
    ∧ (∀ (s : CState α ε) (i j : Nat) (sig : Sig α ε),
        s.phase = .activeOn j → i ≠ j → stepc s (Ev.trigger i sig) = s) := by
  refine ⟨fun g sigs h => deliverAll_inactive sigs g h, ?_, ?_, ?_, ?_⟩
  · intro g e
    by_cases hg : g.active <;> simp [deliverSig, hg]
  · intro g
    by_cases hg : g.active <;> simp [deliverSig, hg]
  · intro g
    by_cases hg : g.active <;> simp [gUnsub, hg]
  · intro s i j sig h hij
    obtain ⟨n, ph, sc, td, tr⟩ := s
    simp only at h
    subst h
    simp [stepc, hij]

/-- Witness for C3: an inactive subscription drops a late error and a late
next; in `concat`, after source 0 completed (source 1 active), a stray error
from source 0 leaves the machine state untouched. -/
theorem inactive_subscription_drops_callbacks_witness :
    deliverAll (GSub.mk false 1 ([Out.complete] : List (Out Nat Nat)))
        [Sig.error 5, Sig.next 3] = GSub.mk false 1 [Out.complete]
    ∧ stepc (CState.mk 2 (Phase.activeOn 1) 2 [1, 0] ([] : List (Out Nat Nat)))
        (Ev.trigger 0 (Sig.error 5)) =
      CState.mk 2 (Phase.activeOn 1) 2 [1, 0] [] :=
  ⟨inactive_subscription_drops_callbacks.1
      (GSub.mk false 1 [Out.complete]) [Sig.error 5, Sig.next 3] rfl,
    inactive_subscription_drops_callbacks.2.2.2.2
      (CState.mk 2 (Phase.activeOn 1) 2 [1, 0] []) 0 1 (Sig.error 5) rfl
      (by decide)⟩

/-- Claim C4: if source `i` signals error during a `concat` run, no source at
an index greater than `i` is ever subscribed to afterwards — the number of
producers invoked stays `i + 1` (sources `0..i`) and the teardown of every
source beyond `i` never runs, whatever events follow. -/
theorem concat_error_no_later_subscription {α ε : Type} (n : Nat)
    (pre evs : List (Ev α ε)) (i : Nat) (e : ε)
    (h : (runC α ε n pre).phase = .activeOn i) :
    (evs.foldl stepc
        (stepc (runC α ε n pre) (Ev.trigger i (Sig.error e)))).subscribedCount
        = i + 1
    ∧ ∀ j, i < j →
        (evs.foldl stepc
          (stepc (runC α ε n pre)
            (Ev.trigger i (Sig.error e)))).teardowns.getD j 0 = 0 := by
  have hg := goodP_run (α := α) (ε := ε) n pre
  obtain ⟨np, php, scp, tdp, trp, heq⟩ : ∃ np php scp tdp trp,
      runC α ε n pre = CState.mk np php scp tdp trp :=
    ⟨_, _, _, _, _, rfl⟩
  rw [heq] at h hg ⊢
  obtain ⟨hlen, hrest⟩ := hg
  simp only at hlen h
  subst h
  obtain ⟨hi, hsc, htd⟩ := hrest
  simp only at hi hsc htd
  have hstep : stepc (CState.mk np (.activeOn i) scp tdp trp)
        (Ev.trigger i (Sig.error e)) =
      CState.mk np .errored scp (bump tdp i) (trp ++ [Out.error e]) := by
    simp [stepc]
  rw [hstep, foldl_stepc_terminal
    (CState.mk np .errored scp (bump tdp i) (trp ++ [Out.error e])) evs rfl]
  refine ⟨hsc, fun j hj => ?_⟩
  by_cases hjn : j < np
  · have := goodP_bump_at tdp np i hlen hi htd j hjn
    simp only at this
    rw [this]
    have : ¬ (j < i + 1) := by omega
    simp [this]
  · exact getD_len_le (bump tdp i) j (by simp [bump, hlen]; omega)

/-- Witness for C4: three sources; source 0 errors immediately; after a stray
later event the subscribed count is still 1 and sources 1 and 2 have had no
teardown. -/
theorem concat_error_no_later_subscription_witness :
    (runC Nat Nat 3 ([] : List (Ev Nat Nat))).phase = Phase.activeOn 0
    ∧ ([Ev.trigger 1 (Sig.next 9)].foldl stepc
        (stepc (runC Nat Nat 3 [])
          (Ev.trigger 0 (Sig.error 5)))).subscribedCount = 0 + 1
    ∧ ([Ev.trigger 1 (Sig.next 9)].foldl stepc
        (stepc (runC Nat Nat 3 [])
          (Ev.trigger 0 (Sig.error 5)))).teardowns.getD 1 0 = 0
    ∧ ([Ev.trigger 1 (Sig.next 9)].foldl stepc
        (stepc (runC Nat Nat 3 [])
          (Ev.trigger 0 (Sig.error 5)))).teardowns.getD 2 0 = 0 := by
  have h := concat_error_no_later_subscription (α := Nat) (ε := Nat) 3
    [] [Ev.trigger 1 (Sig.next 9)] 0 5 (by decide)
  exact ⟨by decide, h.1, h.2 1 (by decide), h.2 2 (by decide)⟩

/-- Claim C7: unsubscribing a `concat` subscription while source `i` is
active tears down exactly the active inner subscription and no others:
afterwards — whatever further events occur — every source `0..i` has had its
teardown run exactly once (the completed ones at their own completion, source
`i` at the unsubscribe), no source beyond `i` ever has its teardown run, and
nothing further is delivered to the outer observer. -/
theorem concat_unsubscribe_teardown_exact {α ε : Type} (n : Nat)
    (pre evs : List (Ev α ε)) (i : Nat)
    (h : (runC α ε n pre).phase = .activeOn i) :
    (∀ j, j ≤ i →
        (evs.foldl stepc
          (stepc (runC α ε n pre) Ev.unsub)).teardowns.getD j 0 = 1)
    ∧ (∀ j, i < j →
        (evs.foldl stepc
          (stepc (runC α ε n pre) Ev.unsub)).teardowns.getD j 0 = 0)
    ∧ (evs.foldl stepc (stepc (runC α ε n pre) Ev.unsub)).trace =
        (runC α ε n pre).trace := by
  have hg := goodP_run (α := α) (ε := ε) n pre
  obtain ⟨np, php, scp, tdp, trp, heq⟩ : ∃ np php scp tdp trp,
      runC α ε n pre = CState.mk np php scp tdp trp :=
    ⟨_, _, _, _, _, rfl⟩
  rw [heq] at h hg ⊢
  obtain ⟨hlen, hrest⟩ := hg
  simp only at hlen h
  subst h
  obtain ⟨hi, hsc, htd⟩ := hrest
  simp only at hi hsc htd
  have hstep : stepc (CState.mk np (.activeOn i) scp tdp trp) Ev.unsub =
      CState.mk np .cancelled scp (bump tdp i) trp := rfl
  rw [hstep, foldl_stepc_terminal
    (CState.mk np .cancelled scp (bump tdp i) trp) evs rfl]
  have hbump := goodP_bump_at tdp np i hlen hi htd
  refine ⟨fun j hj => ?_, fun j hj => ?_, rfl⟩
  · have hjn : j < np := by omega
    have := hbump j hjn
    simp only at this
    rw [this]
    have hlt : j < i + 1 := by omega
    simp [hlt]
  · by_cases hjn : j < np
    · have := hbump j hjn
      simp only at this
      rw [this]
      have hlt : ¬ (j < i + 1) := by omega
      simp [hlt]
    · exact getD_len_le (bump tdp i) j (by simp [bump, hlen]; omega)

/-- Witness for C7: two sources, source 0 completes (its teardown runs at
completion), then the outer subscription is unsubscribed while source 1 is
active; afterwards both teardowns have run exactly once, and a later stray
event changes neither the teardowns nor the delivered trace. -/
theorem concat_unsubscribe_teardown_exact_witness :
    (runC Nat Nat 2 [Ev.trigger 0 Sig.complete]).phase = Phase.activeOn 1
    ∧ ([Ev.trigger 1 (Sig.next 9)].foldl stepc
        (stepc (runC Nat Nat 2 [Ev.trigger 0 Sig.complete])
          Ev.unsub)).teardowns.getD 0 0 = 1
    ∧ ([Ev.trigger 1 (Sig.next 9)].foldl stepc
        (stepc (runC Nat Nat 2 [Ev.trigger 0 Sig.complete])
          Ev.unsub)).teardowns.getD 1 0 = 1
    ∧ ([Ev.trigger 1 (Sig.next 9)].foldl stepc
        (stepc (runC Nat Nat 2 [Ev.trigger 0 Sig.complete])
          Ev.unsub)).trace =
        (runC Nat Nat 2 [Ev.trigger 0 Sig.complete]).trace := by
  have h := concat_unsubscribe_teardown_exact (α := Nat) (ε := Nat) 2
    [Ev.trigger 0 Sig.complete] [Ev.trigger 1 (Sig.next 9)] 1 (by decide)
  exact ⟨by decide, h.1 0 (by decide), h.1 1 (by decide), h.2.2⟩

/-- Claim C5: for every `concat` subscription at most one inner subscription
is active at a time (the phase carries a single active index), a new source's
producer is invoked only as the reaction to the currently active source
signalling `complete` (and then it is exactly source `i + 1`), and once the
run is terminal no further source is ever subscribed. -/
theorem concat_single_active_sequential {α ε : Type} :
    (∀ (s : CState α ε) (i j : Nat),
        s.phase = .activeOn i → s.phase = .activeOn j → i = j)
    ∧ (∀ (s : CState α ε) (i : Nat) (e : Ev α ε), s.phase = .activeOn i →
        (stepc s e).subscribedCount ≠ s.subscribedCount →
        e = Ev.trigger i Sig.complete
        ∧ (stepc s e).subscribedCount = s.subscribedCount + 1
        ∧ (stepc s e).phase = .activeOn (i + 1))
    ∧ (∀ (s : CState α ε) (e : Ev α ε), s.phase.isTerminal = true →
        (stepc s e).subscribedCount = s.subscribedCount) := by
  refine ⟨?_, ?_, ?_⟩
  · intro s i j hi hj
    rw [hi] at hj
    exact Phase.activeOn.inj hj
  · intro s i e hph hne
    obtain ⟨n, ph, sc, td, tr⟩ := s
    simp only at hph
    subst hph
    cases e with
    | unsub => exact absurd rfl hne
    | trigger j sig =>
      by_cases hji : j = i
      · subst hji
        cases sig with
        | next v =>
          have hstep : stepc (CState.mk n (.activeOn j) sc td tr)
                (Ev.trigger j (Sig.next v)) =
              CState.mk n (.activeOn j) sc td (tr ++ [Out.next v]) := by
            simp [stepc]
          rw [hstep] at hne
          exact absurd rfl hne
        | error err =>
          have hstep : stepc (CState.mk n (.activeOn j) sc td tr)
                (Ev.trigger j (Sig.error err)) =
              CState.mk n .errored sc (bump td j)
                (tr ++ [Out.error err]) := by
            simp [stepc]
          rw [hstep] at hne
          exact absurd rfl hne
        | complete =>
          by_cases hadv : j + 1 < n
          · have hstep : stepc (CState.mk n (.activeOn j) sc td tr)
                  (Ev.trigger j Sig.complete) =
                CState.mk n (.activeOn (j + 1)) (sc + 1) (bump td j) tr := by
              simp [stepc, hadv]
            exact ⟨rfl, by rw [hstep], by rw [hstep]⟩
          · have hstep : stepc (CState.mk n (.activeOn j) sc td tr)
                  (Ev.trigger j Sig.complete) =
                CState.mk n .completed sc (bump td j)
                  (tr ++ [Out.complete]) := by
              simp [stepc, hadv]
            rw [hstep] at hne
            exact absurd rfl hne
      · have hstep : stepc (CState.mk n (.activeOn i) sc td tr)
              (Ev.trigger j sig) = CState.mk n (.activeOn i) sc td tr := by
          simp [stepc, hji]
        rw [hstep] at hne
        exact absurd rfl hne
  · intro s e h
    rw [stepc_terminal s e h]

/-- Witness for C5: with three sources and source 0 active, the only event
that changes the subscribed count is source 0's own `complete`, which
advances to source 1. -/
theorem concat_single_active_sequential_witness :
    (Ev.trigger 0 Sig.complete : Ev Nat Nat) = Ev.trigger 0 Sig.complete
    ∧ (stepc (CState.mk 3 (Phase.activeOn 0) 1 [0, 0, 0]
          ([] : List (Out Nat Nat)))
        (Ev.trigger 0 Sig.complete)).subscribedCount =
      (CState.mk 3 (Phase.activeOn 0) 1 [0, 0, 0]
          ([] : List (Out Nat Nat))).subscribedCount + 1
    ∧ (stepc (CState.mk 3 (Phase.activeOn 0) 1 [0, 0, 0]
          ([] : List (Out Nat Nat)))
        (Ev.trigger 0 Sig.complete)).phase = Phase.activeOn (0 + 1) :=
  concat_single_active_sequential.2.1
    (CState.mk 3 (Phase.activeOn 0) 1 [0, 0, 0] []) 0
    (Ev.trigger 0 Sig.complete) rfl (by decide)

/-- Claim C6: a `next` emitted by a source that is not the currently active
one is never delivered to the outer observer, and it is dropped permanently
rather than buffered — the machine state (hence the future behaviour) is
exactly as if the signal had never happened; the same holds after
termination. -/
theorem concat_nonactive_next_dropped {α ε : Type} :
    (∀ (s : CState α ε) (i j : Nat) (v : α), s.phase = .activeOn j → i ≠ j →
        stepc s (Ev.trigger i (Sig.next v)) = s)
    ∧ (∀ (s : CState α ε) (i : Nat) (v : α), s.phase.isTerminal = true →
        stepc s (Ev.trigger i (Sig.next v)) = s) := by
  constructor
  · intro s i j v h hij
    obtain ⟨n, ph, sc, td, tr⟩ := s
    simp only at h
    subst h
    simp [stepc, hij]
  · intro s i v h
    exact stepc_terminal s (Ev.trigger i (Sig.next v)) h

/-- Witness for C6: with source 1 active, a `next 7` from source 0 leaves the
machine state — including the delivered trace — completely unchanged. -/
theorem concat_nonactive_next_dropped_witness :
    stepc (CState.mk 2 (Phase.activeOn 1) 2 [1, 0] ([] : List (Out Nat Nat)))
        (Ev.trigger 0 (Sig.next 7)) =
      CState.mk 2 (Phase.activeOn 1) 2 [1, 0] [] :=
  concat_nonactive_next_dropped.1
    (CState.mk 2 (Phase.activeOn 1) 2 [1, 0] []) 0 1 7 rfl (by decide)

/-- Claim C8: `unsubscribe()` is idempotent. On the `Subscription` primitive,
a second (or any further) call is a no-op with the same observable effect as
one call: starting from an active subscription whose teardown has not run,
after one or two calls the teardown has run exactly once and no further
observer callbacks are delivered; on a `concat` subscription a second
`unsubscribe` changes nothing, and after natural termination `unsubscribe`
is a no-op. -/
theorem unsubscribe_idempotent {α ε : Type} :
    (∀ g : GSub α ε, gUnsub (gUnsub g) = gUnsub g)
    ∧ (∀ g : GSub α ε, g.active = true → g.teardownRuns = 0 →
        (gUnsub g).teardownRuns = 1
        ∧ (gUnsub (gUnsub g)).teardownRuns = 1
        ∧ (gUnsub (gUnsub g)).delivered = g.delivered)
    ∧ (∀ s : CState α ε, stepc (stepc s Ev.unsub) Ev.unsub = stepc s Ev.unsub)
    ∧ (∀ s : CState α ε, s.phase.isTerminal = true →
        stepc s Ev.unsub = s) := by
  refine ⟨?_, ?_, ?_, ?_⟩
  · intro g
    by_cases hg : g.active <;> simp [gUnsub, hg]
  · intro g ha h0
    simp [gUnsub, ha, h0]
  · intro s
    obtain ⟨n, ph, sc, td, tr⟩ := s
    cases ph with
    | activeOn i =>
      have hstep : stepc (CState.mk n (.activeOn i) sc td tr) Ev.unsub =
          CState.mk n .cancelled sc (bump td i) tr := rfl
      rw [hstep]
      rfl
    | completed => rfl
    | errored => rfl
    | cancelled => rfl
  · intro s h
    exact stepc_terminal s Ev.unsub h

/-- Witness for C8: a fresh active subscription unsubscribed twice has run
its teardown exactly once and delivered nothing new. -/
theorem unsubscribe_idempotent_witness :
    (GSub.mk true 0 ([Out.next 4] : List (Out Nat Nat))).active = true
    ∧ ((gUnsub (GSub.mk true 0 ([Out.next 4] : List (Out Nat Nat)))).teardownRuns = 1
      ∧ (gUnsub (gUnsub (GSub.mk true 0
          ([Out.next 4] : List (Out Nat Nat))))).teardownRuns = 1
      ∧ (gUnsub (gUnsub (GSub.mk true 0
          ([Out.next 4] : List (Out Nat Nat))))).delivered = [Out.next 4]) :=
  ⟨rfl, unsubscribe_idempotent.2.1 (GSub.mk true 0 [Out.next 4]) rfl rfl⟩
